import Mathlib

/-!
Verification of the VendorFlow dashboard client (React/TypeScript) against its
natural-language specification.  The development shallowly embeds the
client-side CSV introspection, job-submission and status/log-consumption logic
of the repository: strings are lists of characters, the shared UI state
(status, progress, log buffer) is an explicit record, and the event-driven
handlers are pure state-transition functions.  External effects (the JSON
parser of the platform, the network fetch outcome, the poll responses) enter
as explicit parameters.
-/

namespace VendorFlow

/-! ## Character and string primitives

JavaScript string operations used by the source, modelled on lists of
characters.  The whitespace class covers the ASCII whitespace characters
relevant to the inputs at hand. -/

/-- Whitespace as tested by the trim operation of the host language
(ASCII subset). -/
def isSpaceChar (c : Char) : Bool :=
  c = ' ' || c = '\t' || c = '\n' || c = '\r' || c = '\x0b' || c = '\x0c'

/-- JavaScript trim: drop whitespace from both ends. -/
def jsTrim (s : List Char) : List Char :=
  ((s.dropWhile isSpaceChar).reverse.dropWhile isSpaceChar).reverse

/-- JavaScript split on a single separator character: every occurrence
separates, empty pieces are kept, and the result is never empty. -/
def splitChar (sep : Char) : List Char → List (List Char)
  | [] => [[]]
  | c :: cs =>
    if c = sep then [] :: splitChar sep cs
    else
      match splitChar sep cs with
      | [] => [[c]]
      | p :: ps => (c :: p) :: ps

/-- Join a list of lines with a single separator character (used to build the
concrete texts the theorems quantify over). -/
def joinSep (sep : Char) : List (List Char) → List Char
  | [] => []
  | [l] => l
  | l :: ls => l ++ sep :: joinSep sep ls

/-! ## File Introspector (ScrapingView)

Embedded from the ScrapingView component: parseCSVFile,
extractPrefixFromFilename, detectModelColumn and the configuration update in
handleFileSelect. -/

/-- parseCSVFile: split the file text on line feeds, keep the lines whose trim
is non-empty, read the first kept line as the comma-separated header (each
field trimmed, then every quote character removed), and report one row per
remaining kept line.  The source rejects (none) when there is no non-blank
line, because indexing the empty line list throws inside the try block. -/
def parseCSVFile (text : List Char) :
    Option (Nat × List (List Char)) :=
  let lines := (splitChar '\n' text).filter (fun l => !(jsTrim l).isEmpty)
  match lines with
  | [] => none
  | h :: rest =>
    some (rest.length, (splitChar ',' h).map (fun f => (jsTrim f).filter (fun c => c ≠ '"')))

/-- The extension-stripping replace: remove a final dot followed by a
non-empty run of characters other than dot and slash; otherwise the filename
is unchanged. -/
def stripExt (fn : List Char) : List Char :=
  let r := fn.reverse
  let ext := r.takeWhile (fun c => !(c = '.' || c = '/'))
  match r.drop ext.length with
  | '.' :: rest => if ext.isEmpty then fn else rest.reverse
  | _ => fn

/-- extractPrefixFromFilename: strip the extension, then return the last three
characters of the base name when they are all decimal digits, and the empty
string otherwise. -/
def extractPrefixFromFilename (fn : List Char) : List Char :=
  let base := stripExt fn
  let t := base.reverse.take 3
  if t.length = 3 && t.all Char.isDigit then t.reverse else []

/-- The prefix update performed by handleFileSelect: the derived prefix when
it is non-empty (truthy), the previous value otherwise. -/
def prefixAfterSelect (prev : List Char) (fn : List Char) : List Char :=
  let d := extractPrefixFromFilename fn
  if d.isEmpty then prev else d

/-- Lower-case a string character by character (toLowerCase on the ASCII
headers at hand). -/
def lowerStr (s : List Char) : List Char := s.map Char.toLower

/-- Does the haystack start with the needle? -/
def startsWithB : List Char → List Char → Bool
  | [], _ => true
  | _ :: _, [] => false
  | n :: ns, h :: hs => n = h && startsWithB ns hs

/-- JavaScript String.includes: the needle occurs contiguously somewhere in
the haystack. -/
def includesB (needle : List Char) : List Char → Bool
  | [] => needle.isEmpty
  | h :: hs => startsWithB needle (h :: hs) || includesB needle hs

/-- Header predicate of the first detection pass: the lower-cased header
contains both "model" and "mfr". -/
def isModelMfrHeader (col : List Char) : Bool :=
  includesB "model".toList (lowerStr col) && includesB "mfr".toList (lowerStr col)

/-- Header predicate of the second detection pass: the lower-cased header
contains "model". -/
def isModelHeader (col : List Char) : Bool :=
  includesB "model".toList (lowerStr col)

/-- detectModelColumn: first header containing both "model" and "mfr"
(case-insensitively); else the first containing "model"; else the fallback
expression, which yields the first column when that column is truthy
(non-empty) and the literal default otherwise. -/
def detectModelColumn (columns : List (List Char)) : List Char :=
  match columns.find? isModelMfrHeader with
  | some col => col
  | none =>
    match columns.find? isModelHeader with
    | some col => col
    | none =>
      match columns with
      | [] => "Mfr Model".toList
      | col :: _ => if col.isEmpty then "Mfr Model".toList else col

/-- The maximal run of decimal digits at the end of a string.  This is the
notion the specification quantifies with ("a trailing run of exactly three
digits"); it is compared against the code above. -/
def trailingDigitRun (s : List Char) : List Char :=
  s.reverse.takeWhile Char.isDigit

/-! ## Shared UI state

The status enum, log entries and the state trio (status, progress, logs) of
the App component.  Log entries carry their message and severity; the random
id and the wall-clock timestamp of the source are display metadata outside
the model. -/

/-- Log severity (the LogEntry type union of types.ts). -/
inductive LogType where
  | info
  | error
  | success
  | warning
deriving DecidableEq, Repr

/-- A log entry: message and severity. -/
structure LogEntry where
  message : List Char
  ltype : LogType
deriving DecidableEq, Repr

/-- AppStatus enum of types.ts. -/
inductive AppStatus where
  | idle
  | processing
  | completed
  | error
deriving DecidableEq, Repr

/-- The shared mutable state of the App component: status, progress and the
log buffer. -/
structure AppState where
  status : AppStatus
  progress : Int
  logs : List LogEntry
deriving DecidableEq, Repr

/-- Append one entry to the log buffer (the setLogs update inside addLog:
no truncation). -/
def addLogEntry (st : AppState) (e : LogEntry) : AppState :=
  { st with logs := st.logs ++ [e] }

/-- addLog of the App component: build an entry from message and severity and
append it, without any bound on the buffer. -/
def addLog (st : AppState) (m : List Char) (t : LogType) : AppState :=
  addLogEntry st ⟨m, t⟩

/-- The log-stream handler buffer update of App.tsx: keep the last 99
entries of the previous buffer (slice with negative index) and append the
new entry. -/
def streamLogAppend (logs : List LogEntry) (e : LogEntry) : List LogEntry :=
  logs.drop (logs.length - 99) ++ [e]

/-- The severity mapping of the log-stream handler: level "error", "warning"
and "success" map to themselves, everything else to info. -/
def levelToType (level : Option (List Char)) : LogType :=
  if level = some "error".toList then .error
  else if level = some "warning".toList then .warning
  else if level = some "success".toList then .success
  else .info

/-- The log-stream handler of App.tsx applied to the logs state: build the
entry from the streamed message and level and append it with the bounded
update. -/
def onStreamLog (logs : List LogEntry) (msg : List Char) (level : Option (List Char)) :
    List LogEntry :=
  streamLogAppend logs ⟨msg, levelToType level⟩

/-! ## Job Submitter: multipart form assembly

Embedded from the handleProcess form assembly (the deploy-script variant of
the App component, which carries the config special case; the named App.tsx
differs only in lacking that case).  Payload values are the JavaScript values
the views pass: files, strings, numbers, flat objects, null and undefined. -/

/-- A primitive inside a flat configuration object. -/
inductive JSPrim where
  | pstr (s : List Char)
  | pnum (n : Int)
deriving DecidableEq, Repr

/-- A payload value as assembled by the views. -/
inductive JSValue where
  | file (name : List Char) (size : Nat)
  | str (s : List Char)
  | num (n : Int)
  | obj (fields : List (List Char × JSPrim))
  | null
  | undef
deriving DecidableEq, Repr

/-- Decimal rendering of an integer (String coercion of a number; fractional
values do not occur in the payloads at hand). -/
def numToChars (n : Int) : List Char := (toString n).toList

/-- The string FormData stores for a primitive value. -/
def primStr : JSPrim → List Char
  | .pstr s => s
  | .pnum n => numToChars n

/-- JSON rendering of a primitive (strings are quoted verbatim: the flat
configuration values at hand need no escaping). -/
def primJson : JSPrim → List Char
  | .pstr s => '"' :: s ++ ['"']
  | .pnum n => numToChars n

/-- JSON.stringify of a flat object. -/
def jsonStringify (fields : List (List Char × JSPrim)) : List Char :=
  '\x7b' :: joinSep ',' (fields.map (fun f => '"' :: f.1 ++ '"' :: ':' :: primJson f.2)) ++ ['\x7d']

/-- One part of the outgoing multipart request. -/
inductive Part where
  | filePart (name : List Char) (size : Nat)
  | textPart (s : List Char)
deriving DecidableEq, Repr

/-- The forEach over Object.keys of the payload: files become binary parts; a
non-null object under the key "config" is expanded into one text part per
inner key; any other non-null object is serialized by JSON.stringify into a
single text part; other values are appended as text unless they are null or
undefined, which append nothing. -/
def formDataStep (acc : List (List Char × Part)) (kv : List Char × JSValue) :
    List (List Char × Part) :=
  match kv.2 with
  | .file n sz => acc ++ [(kv.1, .filePart n sz)]
  | .obj fs =>
    if kv.1 = "config".toList then
      acc ++ fs.map (fun f => (f.1, Part.textPart (primStr f.2)))
    else
      acc ++ [(kv.1, .textPart (jsonStringify fs))]
  | .str s => acc ++ [(kv.1, .textPart s)]
  | .num n => acc ++ [(kv.1, .textPart (numToChars n))]
  | .null => acc
  | .undef => acc

/-- The form assembly: the forEach over Object.keys of the payload, folding
the step over an initially empty part list. -/
def buildFormDataParts (payload : List (List Char × JSValue)) :
    List (List Char × Part) :=
  payload.foldl formDataStep []

/-- The concrete payload of the C6 counterexample: a file part, the flat
configuration object the scraping path submits under the key "config", and
a null-valued key. -/
def scrapePayloadExample : List (List Char × JSValue) :=
  [("file".toList, .file "v.csv".toList 9),
   ("config".toList, .obj [("prefix".toList, .pstr "109".toList)]),
   ("note".toList, .null)]

/-- The informational log entries the same forEach emits, one per attached
file (the kilobyte size suffix of the message, a floating-point rendering, is
elided from the model). -/
def attachLogs (payload : List (List Char × JSValue)) : List LogEntry :=
  payload.filterMap
    (fun kv =>
      match kv.2 with
      | .file n _ => some ⟨"Attached file: ".toList ++ n, .info⟩
      | _ => none)

/-- The encoding the specification describes for a key that is present:
files as binary parts, flat objects as a single serialized text part, every
other scalar as a text part.  Null and undefined never reach this function
under the hypotheses of the amended theorem; they are given the empty text
part to keep the function total. -/
def specEncodePart : JSValue → Part
  | .file n sz => .filePart n sz
  | .obj fs => .textPart (jsonStringify fs)
  | .str s => .textPart s
  | .num n => .textPart (numToChars n)
  | .null => .textPart []
  | .undef => .textPart []

/-! ## Status/Log Consumer: line-delimited JSON stream

Embedded from the stream reader loop of handleProcess.  A successfully parsed
line yields a fragment with the optional fields the loop inspects; the
platform JSON parser itself is external and enters the model as a function
from line text to an optional fragment (none for a line that fails to
parse).  Fragment severities outside the enumerated four and fractional
progress numbers are not modelled. -/

/-- The fields of a parsed stream fragment that the loop inspects. -/
structure Fragment where
  flog : Option (List Char)
  ftype : Option LogType
  fprogress : Option Int
  fstatus : Option (List Char)
  fmessage : Option (List Char)
deriving DecidableEq, Repr

/-- Fold one parsed fragment into the state, exactly in source order: a
truthy log field is appended with the given severity (info when absent); a
truthy progress number is written (zero and absence are falsy and leave the
progress untouched); status "complete" marks completion and appends the
success entry; status "error" marks the error and appends the message (or
the fixed fallback when the message is absent or empty). -/
def applyFragment (st : AppState) (f : Fragment) : AppState :=
  let st :=
    match f.flog with
    | some m => if m.isEmpty then st else addLog st m (f.ftype.getD .info)
    | none => st
  let st :=
    match f.fprogress with
    | some p => if p = 0 then st else { st with progress := p }
    | none => st
  let st :=
    if f.fstatus = some "complete".toList then
      addLog { st with status := .completed } "Process finished successfully.".toList .success
    else st
  let st :=
    if f.fstatus = some "error".toList then
      addLog { st with status := .error }
        (match f.fmessage with
         | some m => if m.isEmpty then "Unknown error occurred".toList else m
         | none => "Unknown error occurred".toList) .error
    else st
  st

/-- Fold a sequence of parsed fragments. -/
def applyFragments (st : AppState) (fs : List Fragment) : AppState :=
  fs.foldl applyFragment st

/-- One step of the specification-side progress fold: a carried non-zero
(truthy) progress value wins, zero and absence leave the accumulator. -/
def progressStep (acc : Option Int) (f : Fragment) : Option Int :=
  match f.fprogress with
  | some p => if p = 0 then acc else some p
  | none => acc

/-- The last truthy progress value carried by a fragment sequence, if any
(the value the amended last-write-wins statement predicts). -/
def lastTruthyProgress (fs : List Fragment) : Option Int :=
  fs.foldl progressStep none

/-- Process one complete line: skip it when its trim is empty; otherwise try
the JSON parser, fold the fragment on success, and on failure append the raw
line as an informational entry. -/
def processLine (parse : List Char → Option Fragment) (st : AppState) (line : List Char) :
    AppState :=
  if (jsTrim line).isEmpty then st
  else
    match parse line with
    | some f => applyFragment st f
    | none => addLog st line .info

/-- Process the complete lines extracted from the stream, in order. -/
def processLines (parse : List Char → Option Fragment) (st : AppState)
    (lines : List (List Char)) : AppState :=
  lines.foldl (processLine parse) st

/-- One reader chunk: append it to the buffer, split on line feeds, keep the
last piece as the new buffer and hand the others over as complete lines. -/
def feedChunk (buf chunk : List Char) : List (List Char) × List Char :=
  let parts := splitChar '\n' (buf ++ chunk)
  (parts.dropLast, parts.getLastD [])

/-- The while loop over reader chunks: thread the carry-over buffer, process
the complete lines of every chunk; whatever remains in the buffer when the
stream ends is never parsed (the source breaks out of the loop). -/
def processChunks (parse : List Char → Option Fragment) (st : AppState)
    (chunks : List (List Char)) : AppState × List Char :=
  chunks.foldl
    (fun acc chunk =>
      let fed := feedChunk acc.2 chunk
      (processLines parse acc.1 fed.1, fed.2))
    (st, [])

/-- The outcome of the fetch, as seen by the try block: a thrown error (a
network failure, or the error thrown on a non-ok response, carrying its
message) or a readable body delivered as a list of chunks. -/
inductive FetchOutcome where
  | failure (msg : List Char)
  | stream (chunks : List (List Char))

/-- The base URL fallback of the deploy-script App component. -/
def apiUrl : List Char := "http://localhost:8000".toList

/-- handleProcess: the unified submission handler.  A second invocation while
the status is processing returns at once (first component unchanged state,
second component false: no request was sent).  Otherwise the state is reset
(status processing, progress zero, empty log buffer), the initializing entry
is appended, and with an endpoint present the form is assembled (logging one
entry per file), the sending entry is appended and the request goes out; a
thrown failure appends the error entry and flips the status to error, a
streamed body is folded line by line.  Without an endpoint the source
schedules a simulation callback; its effect is modelled immediately, the two
second delay is not. -/
def handleProcess (parse : List Char → Option Fragment) (st : AppState)
    (taskName : List Char) (payload : List (List Char × JSValue))
    (endpoint : Option (List Char)) (outcome : FetchOutcome) : AppState × Bool :=
  if st.status = .processing then (st, false)
  else
    let st1 : AppState :=
      { status := .processing, progress := 0,
        logs := [⟨"Initializing ".toList ++ taskName ++ "...".toList, .info⟩] }
    match endpoint with
    | none =>
      (addLog { st1 with status := .completed, progress := 100 }
        "Simulation complete".toList .success, false)
    | some ep =>
      let st2 := { st1 with logs := st1.logs ++ attachLogs payload }
      let st2 := addLog st2
        ("[API] Sending request to ".toList ++ apiUrl ++ ep ++ "...".toList) .info
      match outcome with
      | .failure msg =>
        (addLog { st2 with status := .error } ("Error: ".toList ++ msg) .error, true)
      | .stream chunks => ((processChunks parse st2 chunks).1, true)

/-! ## Status polling and stop (App.tsx) -/

/-- The poll response shape of the status endpoint. -/
structure PollResp where
  is_processing : Bool
  pprogress : Int
deriving DecidableEq, Repr

/-- The poll interval passed to setInterval, in milliseconds. -/
def statusPollIntervalMs : Nat := 2000

/-- One tick of the status polling callback.  The callback compares the
status variable it closed over when the mount effect created it (captured)
rather than the current status; a failed fetch is swallowed without any
state change. -/
def pollTick (captured : AppStatus) (st : AppState) (resp : Option PollResp) : AppState :=
  match resp with
  | none => st
  | some r =>
    if r.is_processing then { st with status := .processing, progress := r.pprogress }
    else if captured = .processing then { st with status := .completed, progress := 100 }
    else st

/-- A sequence of poll ticks with the same captured status. -/
def runPolls (captured : AppStatus) (st : AppState) (resps : List (Option PollResp)) :
    AppState :=
  resps.foldl (pollTick captured) st

/-- The status value the mount effect closes over: the initial state of the
status hook, idle.  The effect has an empty dependency list, so the interval
callback keeps this value for the lifetime of the component. -/
def mountCapturedStatus : AppStatus := .idle

/-- stopProcessing of App.tsx: a no-op unless the status is processing;
otherwise the stop request goes out, its outcome is logged (a warning entry
on delivery, an error entry on failure), and in either case the status is
reset to idle, the user-initiated stop is logged as an error entry and the
progress is reset to zero. -/
def stopProcessing (st : AppState) (delivered : Bool) : AppState :=
  if st.status ≠ .processing then st
  else
    let st1 :=
      if delivered then addLog st "Stop request sent to server.".toList .warning
      else addLog st "Failed to send stop request.".toList .error
    let st1 := addLog { st1 with status := .idle } "Process stopped by user.".toList .error
    { st1 with progress := 0 }

/-! ## Helper lemmas on splitting and joining -/

theorem joinSep_cons_cons (sep : Char) (l l' : List Char) (rest : List (List Char)) :
    joinSep sep (l :: l' :: rest) = l ++ sep :: joinSep sep (l' :: rest) := rfl

theorem splitChar_no_sep {sep : Char} {l : List Char} (h : sep ∉ l) :
    splitChar sep l = [l] := by
  induction l with
  | nil => rfl
  | cons c cs ih =>
    have hc : c ≠ sep := by rintro rfl; exact h (List.mem_cons_self _ _)
    have hcs : sep ∉ cs := fun hm => h (List.mem_cons_of_mem _ hm)
    simp [splitChar, hc, ih hcs]

theorem splitChar_append_sep {sep : Char} {l t : List Char} (h : sep ∉ l) :
    splitChar sep (l ++ sep :: t) = l :: splitChar sep t := by
  induction l with
  | nil => simp [splitChar]
  | cons c cs ih =>
    have hc : c ≠ sep := by rintro rfl; exact h (List.mem_cons_self _ _)
    have hcs : sep ∉ cs := fun hm => h (List.mem_cons_of_mem _ hm)
    simp [splitChar, hc, ih hcs]

theorem splitChar_joinSep {sep : Char} :
    ∀ (ls : List (List Char)), ls ≠ [] → (∀ l ∈ ls, sep ∉ l) →
      splitChar sep (joinSep sep ls) = ls
  | [], h, _ => absurd rfl h
  | [l], _, hmem => by
    simpa [joinSep] using splitChar_no_sep (hmem l (by simp))
  | l :: l' :: rest, _, hmem => by
    have h1 : sep ∉ l := hmem l (by simp)
    rw [joinSep_cons_cons, splitChar_append_sep h1,
      splitChar_joinSep (l' :: rest) (by simp)
        (fun x hx => hmem x (List.mem_cons_of_mem _ hx))]

theorem joinSep_not_mem {c sep : Char} :
    ∀ (ls : List (List Char)), c ≠ sep → (∀ l ∈ ls, c ∉ l) → c ∉ joinSep sep ls
  | [], _, _ => by simp [joinSep]
  | [l], _, hmem => by simpa [joinSep] using hmem l (by simp)
  | l :: l' :: rest, hne, hmem => by
    rw [joinSep_cons_cons]
    intro hc
    rcases List.mem_append.mp hc with hc | hc
    · exact hmem l (by simp) hc
    · rcases List.mem_cons.mp hc with rfl | hc
      · exact hne rfl
      · exact joinSep_not_mem (l' :: rest) hne
          (fun x hx => hmem x (List.mem_cons_of_mem _ hx)) hc

theorem filter_all_true {α : Type} {p : α → Bool} :
    ∀ (l : List α), (∀ a ∈ l, p a = true) → l.filter p = l
  | [], _ => rfl
  | a :: l, h => by
    simp [List.filter, h a (by simp),
      filter_all_true l (fun x hx => h x (List.mem_cons_of_mem _ hx))]

/-! ## C2: CSV introspection on well-formed input -/

/-- C2: for every well-formed CSV text, built as a header of fields (none
containing a comma or line feed, the header line non-blank) followed by k
data lines (each non-blank, none containing a line feed), the introspector
reports rowCount k and the header fields in order, each trimmed with its
quote characters removed. -/
theorem parseCSVFile_wellformed
    (hs ds : List (List Char))
    (hhs : hs ≠ [])
    (hsep : ∀ h ∈ hs, ',' ∉ h ∧ '\n' ∉ h)
    (hhdr : (jsTrim (joinSep ',' hs)).isEmpty = false)
    (hds : ∀ d ∈ ds, '\n' ∉ d ∧ (jsTrim d).isEmpty = false) :
    parseCSVFile (joinSep '\n' (joinSep ',' hs :: ds)) =
      some (ds.length, hs.map (fun h => (jsTrim h).filter (fun c => c ≠ '"'))) := by
  have hnl : '\n' ∉ joinSep ',' hs :=
    joinSep_not_mem hs (by decide) (fun h hh => (hsep h hh).2)
  have hsplitN : splitChar '\n' (joinSep '\n' (joinSep ',' hs :: ds)) =
      joinSep ',' hs :: ds := by
    apply splitChar_joinSep
    · simp
    · intro l hl
      rcases List.mem_cons.mp hl with rfl | hl
      · exact hnl
      · exact (hds l hl).1
  have hfilter : (joinSep ',' hs :: ds).filter (fun l => !(jsTrim l).isEmpty) =
      joinSep ',' hs :: ds := by
    apply filter_all_true
    intro l hl
    rcases List.mem_cons.mp hl with rfl | hl
    · simp [hhdr]
    · simp [(hds l hl).2]
  have hsplitC : splitChar ',' (joinSep ',' hs) = hs :=
    splitChar_joinSep hs hhs (fun h hh => (hsep h hh).1)
  simp [parseCSVFile, hsplitN, hfilter, hsplitC]

/-- Witness for C2 at a concrete file: header "Mfr Model,Price" and two data
rows. -/
theorem parseCSVFile_wellformed_witness :
    parseCSVFile (joinSep '\n'
        (joinSep ',' ["Mfr Model".toList, "Price".toList] ::
          ["A-1,10".toList, "A-2,20".toList])) =
      some (2, ["Mfr Model".toList, "Price".toList].map
        (fun h => (jsTrim h).filter (fun c => c ≠ '"'))) := by
  have h := parseCSVFile_wellformed
    ["Mfr Model".toList, "Price".toList] ["A-1,10".toList, "A-2,20".toList]
    (by decide) (by decide) (by decide) (by decide)
  simpa using h

/-! ## C3: prefix derivation from the filename -/

theorem take_eq_takeWhile_take {α : Type} {p : α → Bool} {l : List α} {n : Nat}
    (h : n ≤ (l.takeWhile p).length) : l.take n = (l.takeWhile p).take n := by
  obtain ⟨t, ht⟩ := List.takeWhile_prefix (l := l) p
  conv_lhs => rw [← ht]
  rw [List.take_append_eq_append_take, Nat.sub_eq_zero_of_le h, List.take_zero,
    List.append_nil]

theorem takeWhile_length_ge_of_take_all {α : Type} {p : α → Bool} :
    ∀ (n : Nat) (l : List α), (l.take n).all p = true → n ≤ l.length →
      n ≤ (l.takeWhile p).length
  | 0, _, _, _ => Nat.zero_le _
  | n + 1, [], _, hlen => absurd hlen (by simp)
  | n + 1, a :: l, hall, hlen => by
    simp only [List.take_succ_cons, List.all_cons, Bool.and_eq_true] at hall
    simp only [List.takeWhile_cons, hall.1, if_true, List.length_cons]
    exact Nat.succ_le_succ
      (takeWhile_length_ge_of_take_all n l hall.2 (by simpa using hlen))

/-- C3 counterexample: the base name of Vendor-1099.csv ends in a maximal
run of four digits, not a run of exactly three, yet the code derives the
prefix 099 (the last three digits) and overwrites a previously entered
value, where the claim requires no prefix to be derived and the previous
value to be preserved. -/
theorem extractPrefix_counterexample :
    (trailingDigitRun (stripExt "Vendor-1099.csv".toList)).length = 4 ∧
    extractPrefixFromFilename "Vendor-1099.csv".toList = "099".toList ∧
    prefixAfterSelect "123".toList "Vendor-1099.csv".toList = "099".toList := by
  decide

/-- C3 amended: when the base name (extension stripped) ends in at least
three digits, the derived prefix is the last three of them and it replaces
any previously entered value; when the trailing digit run is shorter than
three, no prefix is derived and the previous value is preserved. -/
theorem extractPrefix_amended (fn prev : List Char) :
    (3 ≤ (trailingDigitRun (stripExt fn)).length →
      extractPrefixFromFilename fn = ((trailingDigitRun (stripExt fn)).take 3).reverse ∧
      prefixAfterSelect prev fn = ((trailingDigitRun (stripExt fn)).take 3).reverse) ∧
    ((trailingDigitRun (stripExt fn)).length < 3 →
      extractPrefixFromFilename fn = [] ∧ prefixAfterSelect prev fn = prev) := by
  constructor
  · intro h3
    have htake : (stripExt fn).reverse.take 3 = (trailingDigitRun (stripExt fn)).take 3 :=
      take_eq_takeWhile_take h3
    have hlen3 : ((trailingDigitRun (stripExt fn)).take 3).length = 3 := by
      have := List.length_take 3 (trailingDigitRun (stripExt fn))
      omega
    have hall : ((trailingDigitRun (stripExt fn)).take 3).all Char.isDigit = true := by
      rw [List.all_eq_true]
      intro c hc
      exact List.mem_takeWhile_imp (List.take_subset 3 _ hc)
    have hex : extractPrefixFromFilename fn =
        ((trailingDigitRun (stripExt fn)).take 3).reverse := by
      simp only [extractPrefixFromFilename]
      rw [htake]
      simp [hlen3, hall]
    refine ⟨hex, ?_⟩
    simp only [prefixAfterSelect]
    rw [hex]
    have hlenrev : (((trailingDigitRun (stripExt fn)).take 3).reverse).length = 3 := by
      rw [List.length_reverse]; exact hlen3
    have hne : (((trailingDigitRun (stripExt fn)).take 3).reverse).isEmpty = false := by
      cases hrev : ((trailingDigitRun (stripExt fn)).take 3).reverse with
      | nil => rw [hrev] at hlenrev; simp at hlenrev
      | cons a l => simp
    simp [hne]
  · intro hlt
    have hex : extractPrefixFromFilename fn = [] := by
      simp only [extractPrefixFromFilename]
      rcases Nat.lt_or_ge ((stripExt fn).reverse.take 3).length 3 with hl | hl
      · have hne : ((stripExt fn).reverse.take 3).length ≠ 3 := by omega
        rw [decide_eq_false hne, Bool.false_and]
        simp
      · have hlen3 : ((stripExt fn).reverse.take 3).length = 3 := by
          have := List.length_take 3 (stripExt fn).reverse
          omega
        have hrevlen : 3 ≤ (stripExt fn).reverse.length := by
          have := List.length_take 3 (stripExt fn).reverse
          omega
        have hnot : ((stripExt fn).reverse.take 3).all Char.isDigit = false := by
          by_contra hcon
          rw [Bool.not_eq_false] at hcon
          have hge := takeWhile_length_ge_of_take_all 3 (stripExt fn).reverse hcon hrevlen
          unfold trailingDigitRun at hlt
          omega
        simp [hlen3, hnot]
    exact ⟨hex, by simp only [prefixAfterSelect]; rw [hex]; simp⟩

/-- Witness for C3 at Vendor-109.csv: a three-digit trailing run, derived
prefix 109 replacing the previous value, and at Vendor.csv: no trailing
digits, previous value preserved. -/
theorem extractPrefix_amended_witness :
    (3 ≤ (trailingDigitRun (stripExt "Vendor-109.csv".toList)).length ∧
      extractPrefixFromFilename "Vendor-109.csv".toList =
        ((trailingDigitRun (stripExt "Vendor-109.csv".toList)).take 3).reverse) ∧
    ((trailingDigitRun (stripExt "Vendor.csv".toList)).length < 3 ∧
      prefixAfterSelect "123".toList "Vendor.csv".toList = "123".toList) :=
  ⟨⟨by decide, ((extractPrefix_amended "Vendor-109.csv".toList "123".toList).1
      (by decide)).1⟩,
    ⟨by decide, ((extractPrefix_amended "Vendor.csv".toList "123".toList).2
      (by decide)).2⟩⟩

/-! ## C4: key-column detection -/

theorem find?_eq_some_split {α : Type} {p : α → Bool} :
    ∀ {l : List α} {a : α}, l.find? p = some a →
      ∃ pre suf, l = pre ++ a :: suf ∧ p a = true ∧ ∀ x ∈ pre, p x = false := by
  intro l
  induction l with
  | nil => intro a h; simp [List.find?] at h
  | cons b l ih =>
    intro a h
    by_cases hb : p b
    · rw [List.find?_cons_of_pos _ hb] at h
      cases h
      exact ⟨[], l, rfl, hb, by simp⟩
    · rw [List.find?_cons_of_neg _ hb] at h
      obtain ⟨pre, suf, heq, hpa, hpre⟩ := ih h
      refine ⟨b :: pre, suf, by rw [heq]; rfl, hpa, ?_⟩
      intro x hx
      rcases List.mem_cons.mp hx with rfl | hx
      · simpa using hb
      · exact hpre x hx

theorem isModelMfrHeader_false_of_not_model {c : List Char}
    (h : isModelHeader c = false) : isModelMfrHeader c = false := by
  unfold isModelMfrHeader
  unfold isModelHeader at h
  rw [h, Bool.false_and]

/-- C4 counterexample: with the non-empty header list whose only entry is
the empty string (as produced by a header line starting with a comma), no
header contains "model", so the claim requires the first column — the empty
string.  The code returns the fixed default instead, because the empty
string is falsy in the fallback expression. -/
theorem detectModelColumn_counterexample :
    detectModelColumn [[]] = "Mfr Model".toList ∧
    ([[]] : List (List Char)) ≠ [] ∧
    isModelMfrHeader [] = false ∧ isModelHeader [] = false ∧
    "Mfr Model".toList ≠ ([] : List Char) := by
  decide

/-- C4 amended: detection is case-insensitive (the predicates compare after
lower-casing); the result is the first header containing both "model" and
"mfr" when one exists, else the first header containing "model", else the
first column when it is non-empty, and the fixed default name when the list
is empty or its first column is the empty string. -/
theorem detectModelColumn_amended (columns : List (List Char)) :
    ((∃ c ∈ columns, isModelMfrHeader c = true) →
      ∃ pre suf, columns = pre ++ detectModelColumn columns :: suf ∧
        isModelMfrHeader (detectModelColumn columns) = true ∧
        ∀ x ∈ pre, isModelMfrHeader x = false) ∧
    ((∀ c ∈ columns, isModelMfrHeader c = false) →
      (∃ c ∈ columns, isModelHeader c = true) →
      ∃ pre suf, columns = pre ++ detectModelColumn columns :: suf ∧
        isModelHeader (detectModelColumn columns) = true ∧
        ∀ x ∈ pre, isModelHeader x = false) ∧
    ((∀ c ∈ columns, isModelHeader c = false) →
      detectModelColumn columns =
        match columns with
        | [] => "Mfr Model".toList
        | c :: _ => if c.isEmpty then "Mfr Model".toList else c) := by
  refine ⟨?_, ?_, ?_⟩
  · rintro ⟨c, hc, hpc⟩
    cases hfind : columns.find? isModelMfrHeader with
    | none =>
      exact absurd hpc (by simpa using List.find?_eq_none.mp hfind c hc)
    | some a =>
      have hd : detectModelColumn columns = a := by
        simp only [detectModelColumn, hfind]
      rw [hd]
      exact find?_eq_some_split hfind
  · intro hforall
    rintro ⟨c, hc, hpc⟩
    have hnone : columns.find? isModelMfrHeader = none := by
      rw [List.find?_eq_none]
      intro x hx
      simp [hforall x hx]
    cases hfind : columns.find? isModelHeader with
    | none =>
      exact absurd hpc (by simpa using List.find?_eq_none.mp hfind c hc)
    | some a =>
      have hd : detectModelColumn columns = a := by
        simp only [detectModelColumn, hnone, hfind]
      rw [hd]
      exact find?_eq_some_split hfind
  · intro hforall
    have hnone2 : columns.find? isModelHeader = none := by
      rw [List.find?_eq_none]
      intro x hx
      simp [hforall x hx]
    have hnone1 : columns.find? isModelMfrHeader = none := by
      rw [List.find?_eq_none]
      intro x hx
      simp [isModelMfrHeader_false_of_not_model (hforall x hx)]
    simp only [detectModelColumn, hnone1, hnone2]

/-- Witness for C4: with headers Price and MFR MODEL, the second header
matches the first pass case-insensitively and is returned. -/
theorem detectModelColumn_amended_witness :
    (∃ c ∈ ["Price".toList, "MFR MODEL".toList], isModelMfrHeader c = true) ∧
    (∃ pre suf, ["Price".toList, "MFR MODEL".toList] =
        pre ++ detectModelColumn ["Price".toList, "MFR MODEL".toList] :: suf ∧
      isModelMfrHeader (detectModelColumn ["Price".toList, "MFR MODEL".toList]) = true ∧
      ∀ x ∈ pre, isModelMfrHeader x = false) :=
  ⟨by decide,
    (detectModelColumn_amended ["Price".toList, "MFR MODEL".toList]).1 (by decide)⟩

/-! ## C1: log buffer bound -/

theorem foldl_addLogEntry_length :
    ∀ (es : List LogEntry) (st : AppState),
      ((es.foldl addLogEntry st).logs).length = st.logs.length + es.length
  | [], _ => by simp
  | e :: es, st => by
    rw [List.foldl_cons, foldl_addLogEntry_length es (addLogEntry st e)]
    simp only [addLogEntry, List.length_append, List.length_cons, List.length_nil]
    omega

/-- C1 counterexample: one hundred and one log messages appended through the
local addLog leave one hundred and one entries in the buffer — the local
path never evicts, so the buffer exceeds one hundred entries and no oldest
entry is dropped. -/
theorem addLog_unbounded_counterexample :
    (((List.replicate 101 (⟨"m".toList, .info⟩ : LogEntry)).foldl addLogEntry
      ⟨.idle, 0, []⟩).logs).length = 101 ∧ 100 < 101 := by
  rw [foldl_addLogEntry_length]
  simp

/-- C1 amended: entries arriving via the log stream keep the buffer bounded:
the stream update yields at most one hundred entries, and applied to a
buffer of exactly one hundred it drops precisely the oldest entry and
preserves the order of the remaining ones; entries appended through the
local addLog are appended without eviction. -/
theorem streamLogAppend_amended (logs : List LogEntry) (e : LogEntry)
    (st : AppState) (m : List Char) (t : LogType) :
    (streamLogAppend logs e).length ≤ 100 ∧
    (logs.length = 100 → streamLogAppend logs e = logs.tail ++ [e]) ∧
    (addLog st m t).logs = st.logs ++ [⟨m, t⟩] := by
  refine ⟨?_, ?_, rfl⟩
  · simp only [streamLogAppend, List.length_append, List.length_drop,
      List.length_cons, List.length_nil]
    omega
  · intro h
    simp [streamLogAppend, h]

/-- Witness for C1 at a buffer of exactly one hundred entries. -/
theorem streamLogAppend_amended_witness :
    (List.replicate 100 (⟨"m".toList, .info⟩ : LogEntry)).length = 100 ∧
    streamLogAppend (List.replicate 100 ⟨"m".toList, .info⟩) ⟨"n".toList, .info⟩ =
      (List.replicate 100 (⟨"m".toList, .info⟩ : LogEntry)).tail ++
        [⟨"n".toList, .info⟩] :=
  ⟨by decide,
    (streamLogAppend_amended (List.replicate 100 ⟨"m".toList, .info⟩)
      ⟨"n".toList, .info⟩ ⟨.idle, 0, []⟩ [] .info).2.1 (by decide)⟩

/-! ## C5: submission guard -/

/-- C5: invoking the submission handler while the status is processing is a
no-op: the state comes back unchanged and no request is sent (the second
component is false). -/
theorem handleProcess_processing_noop (parse : List Char → Option Fragment)
    (st : AppState) (taskName : List Char) (payload : List (List Char × JSValue))
    (endpoint : Option (List Char)) (outcome : FetchOutcome)
    (h : st.status = .processing) :
    handleProcess parse st taskName payload endpoint outcome = (st, false) := by
  simp [handleProcess, h]

/-- Witness for C5 at a concrete processing state with a scrape payload. -/
theorem handleProcess_processing_noop_witness :
    (⟨.processing, 37, [⟨"x".toList, .info⟩]⟩ : AppState).status = .processing ∧
    handleProcess (fun _ => none) ⟨.processing, 37, [⟨"x".toList, .info⟩]⟩
        "Web Scraper".toList [("file".toList, .file "v.csv".toList 9)]
        (some "/api/scrape".toList) (.stream []) =
      (⟨.processing, 37, [⟨"x".toList, .info⟩]⟩, false) :=
  ⟨rfl,
    handleProcess_processing_noop (fun _ => none)
      ⟨.processing, 37, [⟨"x".toList, .info⟩]⟩ "Web Scraper".toList
      [("file".toList, .file "v.csv".toList 9)]
      (some "/api/scrape".toList) (.stream []) rfl⟩

/-! ## C7: malformed stream lines -/

/-- C7 counterexample: a whitespace-only complete line fails to parse as
JSON (the platform parser rejects whitespace-only text, here the parser
argument returns none on every line), yet the loop skips it before parsing:
the state is unchanged and no informational entry is appended, where the
claim requires one for every non-parsing line. -/
theorem processLine_blank_counterexample :
    processLine (fun _ => none) ⟨.processing, 0, []⟩ "   ".toList =
      ⟨.processing, 0, []⟩ ∧
    (jsTrim "   ".toList).isEmpty = true := by
  decide

/-- C7 amended: every complete line that is non-blank after trimming and
fails to parse as JSON is appended as an informational entry, and the fold
continues to the following lines from the updated state (the line is never
fatal); a newline-terminated line arriving in a chunk is handed to the fold
as a complete line.  Whitespace-only lines are skipped instead. -/
theorem processLine_malformed_amended (parse : List Char → Option Fragment)
    (st : AppState) (line : List Char) (rest : List (List Char))
    (hblank : (jsTrim line).isEmpty = false)
    (hparse : parse line = none)
    (hnl : '\n' ∉ line) :
    processLines parse st (line :: rest) =
      processLines parse (addLog st line .info) rest ∧
    (addLog st line .info).logs = st.logs ++ [⟨line, .info⟩] ∧
    (feedChunk [] (line ++ ['\n'])).1 = [line] := by
  refine ⟨?_, rfl, ?_⟩
  · simp [processLines, processLine, hblank, hparse]
  · simp [feedChunk, splitChar_append_sep hnl, splitChar]

/-- Witness for C7 at the malformed line oops. -/
theorem processLine_malformed_amended_witness :
    ((jsTrim "oops".toList).isEmpty = false ∧ '\n' ∉ "oops".toList) ∧
    processLines (fun _ => none) ⟨.processing, 0, []⟩ ["oops".toList] =
      processLines (fun _ => none)
        (addLog ⟨.processing, 0, []⟩ "oops".toList .info) [] :=
  ⟨⟨by decide, by decide⟩,
    (processLine_malformed_amended (fun _ => none) ⟨.processing, 0, []⟩
      "oops".toList [] (by decide) rfl (by decide)).1⟩

/-! ## C9: progress folding -/

theorem applyFragment_progress (st : AppState) (f : Fragment) :
    (applyFragment st f).progress =
      match f.fprogress with
      | some p => if p = 0 then st.progress else p
      | none => st.progress := by
  cases hl : f.flog with
  | none =>
    cases hp : f.fprogress with
    | none =>
      simp [applyFragment, hl, hp, addLog, addLogEntry, apply_ite AppState.progress]
    | some p =>
      by_cases hz : p = 0 <;>
        simp [applyFragment, hl, hp, hz, addLog, addLogEntry,
          apply_ite AppState.progress]
  | some m =>
    by_cases hm : m.isEmpty <;>
      cases hp : f.fprogress with
      | none =>
        simp [applyFragment, hl, hp, hm, addLog, addLogEntry,
          apply_ite AppState.progress]
      | some p =>
        by_cases hz : p = 0 <;>
          simp [applyFragment, hl, hp, hm, hz, addLog, addLogEntry,
            apply_ite AppState.progress]

theorem foldl_progressStep_shift :
    ∀ (fs : List Fragment) (acc : Option Int),
      fs.foldl progressStep acc =
        match lastTruthyProgress fs with
        | some p => some p
        | none => acc
  | [], _ => rfl
  | f :: fs, acc => by
    have hL : lastTruthyProgress (f :: fs) =
        match lastTruthyProgress fs with
        | some p => some p
        | none => progressStep none f := by
      show fs.foldl progressStep (progressStep none f) = _
      exact foldl_progressStep_shift fs (progressStep none f)
    rw [List.foldl_cons, foldl_progressStep_shift fs (progressStep acc f), hL]
    cases lastTruthyProgress fs with
    | some p => rfl
    | none =>
      cases hp : f.fprogress with
      | none => simp [progressStep, hp]
      | some p => by_cases hz : p = 0 <;> simp [progressStep, hp, hz]

/-- C9 counterexample: after a fragment carrying progress fifty, a fragment
carrying progress zero leaves the displayed progress at fifty — zero is
falsy in the progress guard, so the value of the last fragment that carried
one is not displayed. -/
theorem progress_zero_counterexample :
    (applyFragments ⟨.processing, 0, []⟩
      [⟨none, none, some 50, none, none⟩,
       ⟨none, none, some 0, none, none⟩]).progress = 50 ∧
    (50 : Int) ≠ 0 := by
  decide

/-- C9 amended: over every fragment sequence the displayed progress is
last-write-wins among the non-zero carried progress values (lower later
values included): it equals the last non-zero value carried, and stays at
its prior value when no fragment carried a non-zero progress — a carried
zero, like an absent field, is falsy and leaves the progress unchanged. -/
theorem applyFragments_progress_amended (st : AppState) (fs : List Fragment) :
    (applyFragments st fs).progress =
      match lastTruthyProgress fs with
      | some p => p
      | none => st.progress := by
  induction fs generalizing st with
  | nil => rfl
  | cons f fs ih =>
    have h1 : applyFragments st (f :: fs) = applyFragments (applyFragment st f) fs := rfl
    have h2 : lastTruthyProgress (f :: fs) =
        match lastTruthyProgress fs with
        | some p => some p
        | none => progressStep none f := by
      show fs.foldl progressStep (progressStep none f) = _
      exact foldl_progressStep_shift fs (progressStep none f)
    rw [h1, ih, h2]
    cases hM : lastTruthyProgress fs with
    | some p => rfl
    | none =>
      rw [applyFragment_progress]
      cases hp : f.fprogress with
      | none => simp [progressStep, hp]
      | some p => by_cases hz : p = 0 <;> simp [progressStep, hp, hz]

/-! ## C8: status polling -/

/-- C8: the polling callback closes over the mount-time status (idle), so
the completion branch compares against that captured value.  At the failing
input — a poll reporting processing at fifty percent followed by a poll
reporting not processing — the job is not marked complete: the status stays
processing and the progress stays fifty, where the specification requires
completed and one hundred.  A transient poll failure does cause no state
change, and the poll interval constant is two thousand milliseconds. -/
theorem pollTick_stale_closure_bug :
    statusPollIntervalMs = 2000 ∧
    runPolls mountCapturedStatus ⟨.idle, 0, []⟩
      [some ⟨true, 50⟩, some ⟨false, 0⟩] = ⟨.processing, 50, []⟩ ∧
    pollTick mountCapturedStatus ⟨.processing, 50, []⟩ none =
      ⟨.processing, 50, []⟩ := by
  decide

/-! ## C10: stop while processing -/

/-- C10 counterexample: stopping while processing with a failed stop-signal
delivery appends the delivery-failure entry with severity error — no
warning entry records the failure, contrary to the claim — while the idle
transition, the progress reset and the user-stop entry do occur. -/
theorem stopProcessing_counterexample :
    stopProcessing ⟨.processing, 50, []⟩ false =
      ⟨.idle, 0, [⟨"Failed to send stop request.".toList, .error⟩,
        ⟨"Process stopped by user.".toList, .error⟩]⟩ ∧
    (stopProcessing ⟨.processing, 50, []⟩ false).logs.map LogEntry.ltype =
      [.error, .error] ∧
    LogType.error ≠ LogType.warning := by
  decide

/-- C10 amended: while the status is processing, stop resets the status to
idle and the progress to zero and appends the user-stop entry regardless of
whether the stop signal was delivered; when delivery fails, the failure is
recorded by a log entry of severity error (not warning). -/
theorem stopProcessing_amended (st : AppState) (delivered : Bool)
    (h : st.status = .processing) :
    (stopProcessing st delivered).status = .idle ∧
    (stopProcessing st delivered).progress = 0 ∧
    (stopProcessing st delivered).logs = st.logs ++
      [if delivered then ⟨"Stop request sent to server.".toList, .warning⟩
       else ⟨"Failed to send stop request.".toList, .error⟩,
       ⟨"Process stopped by user.".toList, .error⟩] := by
  cases delivered <;> simp [stopProcessing, h, addLog, addLogEntry]

/-- Witness for C10: a concrete processing state stopped with failed
delivery. -/
theorem stopProcessing_amended_witness :
    (⟨.processing, 50, []⟩ : AppState).status = .processing ∧
    (stopProcessing ⟨.processing, 50, []⟩ false).status = .idle ∧
    (stopProcessing ⟨.processing, 50, []⟩ false).progress = 0 ∧
    (stopProcessing ⟨.processing, 50, []⟩ false).logs =
      (⟨.processing, 50, []⟩ : AppState).logs ++
        [if false then ⟨"Stop request sent to server.".toList, .warning⟩
         else ⟨"Failed to send stop request.".toList, .error⟩,
         ⟨"Process stopped by user.".toList, .error⟩] :=
  ⟨rfl, stopProcessing_amended ⟨.processing, 50, []⟩ false rfl⟩

/-! ## C6: multipart assembly -/

theorem formDataStep_append (acc : List (List Char × Part))
    (kv : List Char × JSValue) :
    formDataStep acc kv = acc ++ formDataStep [] kv := by
  obtain ⟨k, v⟩ := kv
  cases v with
  | obj fs =>
    simp only [formDataStep]
    by_cases hk : k = "config".toList
    · rw [if_pos hk, if_pos hk]
      simp
    · rw [if_neg hk, if_neg hk]
      simp
  | file n sz => simp [formDataStep]
  | str s => simp [formDataStep]
  | num n => simp [formDataStep]
  | null => simp [formDataStep]
  | undef => simp [formDataStep]

theorem foldl_formDataStep_shift :
    ∀ (payload : List (List Char × JSValue)) (acc : List (List Char × Part)),
      payload.foldl formDataStep acc = acc ++ payload.foldl formDataStep []
  | [], acc => by simp
  | kv :: payload, acc => by
    rw [List.foldl_cons, List.foldl_cons,
      foldl_formDataStep_shift payload (formDataStep acc kv),
      foldl_formDataStep_shift payload (formDataStep [] kv),
      formDataStep_append acc kv, List.append_assoc]

/-- C6 counterexample: the payload of the scraping path — a file plus the
flat configuration object under the key "config", here together with a
null-valued key — does not reach the request with every key exactly once:
the configuration object is expanded into one part per inner key, the key
"config" itself never appears and no single serialized part is attached for
it, and the null-valued key is silently omitted. -/
theorem buildFormDataParts_counterexample :
    buildFormDataParts scrapePayloadExample =
      [("file".toList, .filePart "v.csv".toList 9),
       ("prefix".toList, .textPart "109".toList)] ∧
    "config".toList ∉ (buildFormDataParts scrapePayloadExample).map Prod.fst ∧
    "note".toList ∉ (buildFormDataParts scrapePayloadExample).map Prod.fst := by
  decide

/-- C6 amended: for every payload whose values are neither null nor
undefined and which binds no object under the key "config", every key
appears in the outgoing request exactly once and in order — files as binary
parts, flat objects as a single serialized text part, and every other
scalar as a text part.  An object under the key "config" is instead
expanded into one text part per inner key, and null or undefined values are
omitted. -/
theorem buildFormDataParts_amended (payload : List (List Char × JSValue))
    (hnn : ∀ kv ∈ payload, kv.2 ≠ JSValue.null ∧ kv.2 ≠ JSValue.undef)
    (hcfg : ∀ kv ∈ payload, ∀ fs, kv.2 = JSValue.obj fs → kv.1 ≠ "config".toList) :
    buildFormDataParts payload =
      payload.map (fun kv => (kv.1, specEncodePart kv.2)) := by
  induction payload with
  | nil => rfl
  | cons kv payload ih =>
    have hstep : buildFormDataParts (kv :: payload) =
        formDataStep [] kv ++ buildFormDataParts payload := by
      unfold buildFormDataParts
      rw [List.foldl_cons]
      exact foldl_formDataStep_shift payload (formDataStep [] kv)
    rw [hstep, ih (fun x hx => hnn x (List.mem_cons_of_mem _ hx))
      (fun x hx => hcfg x (List.mem_cons_of_mem _ hx))]
    obtain ⟨k, v⟩ := kv
    have h1 := hnn ⟨k, v⟩ (List.mem_cons_self _ _)
    have h2 := hcfg ⟨k, v⟩ (List.mem_cons_self _ _)
    cases v with
    | file n sz => simp [formDataStep, specEncodePart]
    | obj fs =>
      have hk : k ≠ "config".toList := h2 fs rfl
      have hone : formDataStep [] (k, JSValue.obj fs) =
          [(k, Part.textPart (jsonStringify fs))] := by
        simp only [formDataStep]
        rw [if_neg hk]
        simp
      rw [hone, List.map_cons]
      rfl
    | str s => simp [formDataStep, specEncodePart]
    | num n => simp [formDataStep, specEncodePart]
    | null => exact absurd rfl h1.1
    | undef => exact absurd rfl h1.2

/-- Witness for C6 on a null-free payload without a config object. -/
theorem buildFormDataParts_amended_witness :
    ((∀ kv ∈ [(("file".toList : List Char), JSValue.file "v.csv".toList 9),
        ("prefix".toList, JSValue.str "109".toList),
        ("start_row".toList, JSValue.num 1)],
      kv.2 ≠ JSValue.null ∧ kv.2 ≠ JSValue.undef)) ∧
    buildFormDataParts
        [("file".toList, JSValue.file "v.csv".toList 9),
         ("prefix".toList, JSValue.str "109".toList),
         ("start_row".toList, JSValue.num 1)] =
      [("file".toList, JSValue.file "v.csv".toList 9),
       ("prefix".toList, JSValue.str "109".toList),
       ("start_row".toList, JSValue.num 1)].map
        (fun kv => (kv.1, specEncodePart kv.2)) :=
  ⟨by decide,
    buildFormDataParts_amended
      [("file".toList, JSValue.file "v.csv".toList 9),
       ("prefix".toList, JSValue.str "109".toList),
       ("start_row".toList, JSValue.num 1)]
      (by decide)
      (by
        intro kv hkv fs hfs
        fin_cases hkv <;> simp_all)⟩

end VendorFlow
